import Mathlib

/-!
Shallow embedding of the MCP CLI tool bridge.

The definitions below are translated from the repository's JavaScript sources:

* `src/mcp/toolbridge.mjs` — catalog building (`buildToolCatalog`), the path
  confinement algorithm (`forceUnderBase`), the per-kind argument sanitizers
  (`sanitizeGitArgs`, `sanitizeFsArgs`, `sanitizeArgsByTool`) and the
  fulfillment loop (`fulfillToolUses`);
* `src/main.mjs` — the tool-calling conversation loop
  (`askAnthropicWithTools`, embedded here as `runToolLoop`) and `extractText`;
* `src/mcp/connect_http.mjs` — the two `jsonRpc` variants of the remote HTTP
  connector (`jsonRpcA`, `jsonRpcB`).

Paths are POSIX path strings; the relevant Node `path` functions are embedded
character-wise (`String` in Lean 4.14 is a list of characters, which matches
JS strings code-unit by code-unit for the ASCII paths involved).
-/

namespace MCPBridge

namespace NodePath

/-- Helper for `splitSlash`: prepend a character to the first group. -/
def consHead (c : Char) : List (List Char) → List (List Char)
  | [] => [[c]]
  | g :: gs => (c :: g) :: gs

/-- Splits a character list on the POSIX separator into the (possibly empty)
groups between separators; never returns `[]`. -/
def splitSlash : List Char → List (List Char)
  | [] => [[]]
  | c :: rest => if c = '/' then [] :: splitSlash rest else consHead c (splitSlash rest)

/-- Joins groups with the POSIX separator; inverse of `splitSlash` on
separator-free groups. -/
def joinSlash : List (List Char) → List Char
  | [] => []
  | [g] => g
  | g :: gs => g ++ '/' :: joinSlash gs

/-- Path segments of a character list: the nonempty groups between
separators. -/
def segsOf (cs : List Char) : List (List Char) :=
  (splitSlash cs).filter (fun g => g ≠ [])

/-- Node's segment normalization (the `normalizeString` pass of
`path.posix.normalize`): drops `.`, resolves `..` against the accumulated
segments, and drops leading `..` when the path is absolute. The accumulator
is kept reversed. -/
def normAux (abs : Bool) : List (List Char) → List (List Char) → List (List Char)
  | acc, [] => acc.reverse
  | acc, s :: rest =>
    if s = ['.'] then normAux abs acc rest
    else if s = ['.', '.'] then
      match acc with
      | [] => if abs then normAux abs [] rest else normAux abs [['.', '.']] rest
      | t :: acc' =>
        if t = ['.', '.'] then normAux abs (['.', '.'] :: t :: acc') rest
        else normAux abs acc' rest
    else normAux abs (s :: acc) rest

/-- Characters of the absolute path with the given segments. -/
def mkAbsChars (gs : List (List Char)) : List Char := '/' :: joinSlash gs

/-- Node `path.normalize` of an absolute path. (Preservation of a trailing
separator is irrelevant to the bridge: every join result is either resolved
again or built from separator-free parts, so it is dropped here.) -/
def normalizeAbsChars (cs : List Char) : List Char :=
  mkAbsChars (normAux true [] (segsOf cs))

/-- Node `path.normalize` of a relative path. -/
def normalizeRelChars (cs : List Char) : List Char :=
  match joinSlash (normAux false [] (segsOf cs)) with
  | [] => ['.']
  | r => r

/-- JS `path.isAbsolute` (POSIX): the string starts with the separator. -/
def isAbsolute (s : String) : Bool :=
  match s.data with
  | c :: _ => c = '/'
  | [] => false

/-- JS `String.prototype.startsWith`, character-wise. -/
def strStartsWith (s pre : String) : Bool := pre.data.isPrefixOf s.data

/-- Node `path.resolve` on the bridge's uses: there the argument is always
absolute (either an absolute caller path or a join with an absolute base),
and `resolve` of an absolute path is plain normalization. -/
def resolveAbs (s : String) : String := String.mk (normalizeAbsChars s.data)

/-- The concatenation step of Node `path.join a b`: empty parts are
skipped, the rest joined with the separator. -/
def joinedChars (a b : List Char) : List Char :=
  if a = [] then b else if b = [] then a else a ++ '/' :: b

/-- The normalization step of Node `path.join`: an all-empty join is `"."`,
otherwise the concatenation is normalized (as absolute or relative). -/
def normJoin (cs : List Char) : String :=
  if cs = [] then String.mk ['.']
  else if cs.head? = some '/' then String.mk (normalizeAbsChars cs)
  else String.mk (normalizeRelChars cs)

/-- Node `path.join a b` (two arguments). -/
def pathJoin (a b : String) : String := normJoin (joinedChars a.data b.data)

/-- Node `path.basename`: the last nonempty segment, or `""` when there is
none (for `""` and `"/"`). -/
def basename (s : String) : String :=
  String.mk (((segsOf s.data).getLast?).getD [])

/-- Node `path.resolve(a, b)` for the bridge's uses, where `a` is absolute:
an absolute `b` wins, an empty `b` is skipped, a relative `b` is appended
and normalized. -/
def resolvePair (a b : String) : String :=
  if isAbsolute b then resolveAbs b
  else if b.data = [] then resolveAbs a
  else resolveAbs (String.mk (a.data ++ '/' :: b.data))

/-- Helper for `pathRelative`: strip the common leading segments. -/
def dropCommon : List (List Char) → List (List Char) → List (List Char) × List (List Char)
  | x :: xs, y :: ys => if x = y then dropCommon xs ys else (x :: xs, y :: ys)
  | xs, ys => (xs, ys)

/-- Node `path.relative(from, to)` for absolute arguments: resolve both,
strip the common leading segments, then go up once per remaining `from`
segment and down the remaining `to` segments. -/
def pathRelative (a b : String) : String :=
  let fs := normAux true [] (segsOf a.data)
  let ts := normAux true [] (segsOf b.data)
  let p := dropCommon fs ts
  String.mk (joinSlash (p.1.map (fun _ => ['.', '.']) ++ p.2))

/-- A valid plain path segment: nonempty, separator-free, not a dot entry. -/
def validSeg (g : List Char) : Bool :=
  !g.isEmpty && !g.contains '/' && g ≠ ['.'] && g ≠ ['.', '.']

/-- A normalized absolute non-root directory string — the shape
`path.resolve` gives the sandbox base directories. -/
def validBase (b : String) : Bool :=
  !(segsOf b.data).isEmpty &&
  (segsOf b.data).all validSeg &&
  b.data = mkAbsChars (segsOf b.data)

/-- The confinement predicate of the spec (§8): the path is the base itself,
or starts with the base followed by the path separator. -/
def underBase (base p : String) : Prop :=
  p = base ∨ strStartsWith p (base ++ "/") = true

/-- The string contains a `..` path segment. -/
def hasDotDot (s : String) : Bool := (segsOf s.data).contains ['.', '.']

instance underBaseDecidable (base p : String) : Decidable (underBase base p) :=
  inferInstanceAs (Decidable (p = base ∨ strStartsWith p (base ++ "/") = true))

end NodePath

open NodePath

/-- JS truthiness of an optional string argument: present and nonempty. -/
def truthy : Option String → Bool
  | some s => s != ""
  | none => false

/-- Confinement algorithm from `src/mcp/toolbridge.mjs` lines 41-49: resolve
the input against the base, and on an escape attempt fall back to joining the
base with the basename of the original input. -/
def forceUnderBase (base inputPath : String) : String :=
  let p0 := if isAbsolute inputPath then inputPath else pathJoin base inputPath
  let p := resolveAbs p0
  if !(strStartsWith p (base ++ "/")) && p != base then
    pathJoin base (basename inputPath)
  else
    p

/-- The argument record a tool call carries. The sanitizers read and rewrite
only the keys modeled here (`repo_path`, `files`, `path`, `source`,
`destination`); all other keys pass through unchanged in the source and are
omitted. An absent key is `none`. -/
structure Args where
  repo_path : Option String := none
  files : Option (List String) := none
  path : Option String := none
  source : Option String := none
  destination : Option String := none
deriving DecidableEq

/-- Session state from `src/main.mjs` line 64: `{ currentRepoPath: null }`. -/
structure SessionState where
  currentRepoPath : Option String := none
deriving DecidableEq

/-- The `git_add` special case of `sanitizeGitArgs` (toolbridge.mjs lines
64-68): absolute staged files are rewritten relative to the resolved
repository path, falling back to `"."` when the relative path is empty. -/
def gitAddFiles (name : String) (rp : String) (a : Args) : Args :=
  if name = "git_add" then
    match a.files with
    | some fs =>
      { a with files := some (fs.map (fun f =>
          if isAbsolute f then
            let r := pathRelative rp f
            if r = "" then "." else r
          else f)) }
    | none => a
  else a

/-- Version-control sanitizer from `src/mcp/toolbridge.mjs` lines 51-71.
Returns the rewritten arguments together with the updated session state (the
source mutates `state.currentRepoPath` in place). -/
def sanitizeGitArgs (baseRepos name : String) (args : Args) (state : SessionState) :
    Args × SessionState :=
  let step : Args × SessionState :=
    if truthy args.repo_path then
      let rp := forceUnderBase baseRepos (args.repo_path.getD "")
      ({ args with repo_path := some rp }, { state with currentRepoPath := some rp })
    else if truthy state.currentRepoPath then
      ({ args with repo_path := state.currentRepoPath }, state)
    else
      let rp := pathJoin baseRepos "repo-mcp"
      ({ args with repo_path := some rp }, { state with currentRepoPath := some rp })
  (gitAddFiles name (step.1.repo_path.getD "") step.1, step.2)

/-- Rewrite of one path-bearing filesystem argument value (the loop body of
`sanitizeFsArgs`, toolbridge.mjs lines 77-87). -/
def sanitizeFsKey (baseDemo : String) (state : SessionState) (v : String) : String :=
  if truthy state.currentRepoPath then
    let cur := state.currentRepoPath.getD ""
    let asRel := if isAbsolute v then basename v else v
    resolvePair cur asRel
  else forceUnderBase baseDemo v

/-- Filesystem sanitizer from `src/mcp/toolbridge.mjs` lines 73-90: rewrites
the conventional path-bearing keys `path`, `source`, `destination` when they
are truthy; reads but never writes the session state. -/
def sanitizeFsArgs (baseDemo name : String) (args : Args) (state : SessionState) : Args :=
  let upd : Option String → Option String := fun o =>
    match o with
    | some v => if v != "" then some (sanitizeFsKey baseDemo state v) else o
    | none => o
  { args with
      path := upd args.path
      source := upd args.source
      destination := upd args.destination }

/-- Sanitizer dispatch from `src/mcp/toolbridge.mjs` lines 92-96: `git` and
`fs` kinds sanitize, anything else is the identity. -/
def sanitizeArgsByTool (baseRepos baseDemo name : String) (rawArgs : Args)
    (state : SessionState) (sanitizer : String) : Args × SessionState :=
  if sanitizer = "git" then sanitizeGitArgs baseRepos name rawArgs state
  else if sanitizer = "fs" then (sanitizeFsArgs baseDemo name rawArgs state, state)
  else (rawArgs, state)

/-- A tool descriptor as fetched from a provider. The JSON-schema objects are
carried opaquely as their serialized text; the bridge never inspects them. -/
structure ToolDesc where
  name : String
  description : Option String := none
  inputSchema : Option String := none
  input_schema : Option String := none
deriving DecidableEq

/-- Shape of a `listTools` response: a plain array, an object with a `tools`
array, or anything else. -/
inductive ToolsRes where
  | arr (ts : List ToolDesc)
  | obj (ts : List ToolDesc)
  | other
deriving DecidableEq

/-- `normalizeToolsList` from `src/mcp/toolbridge.mjs` lines 8-12. -/
def normalizeToolsList : ToolsRes → List ToolDesc
  | .arr ts => ts
  | .obj ts => ts
  | .other => []

/-- A model-facing tool description. -/
structure AnthropicTool where
  name : String
  description : String
  input_schema : String
deriving DecidableEq

/-- The open/untyped fallback schema (serialized). -/
def defaultSchema : String := "type: object, additionalProperties: true"

/-- JS `a || b` on an optional string: the fallback fires on absent or
empty. -/
def orElseStr (o : Option String) (d : String) : String :=
  match o with
  | some s => if s != "" then s else d
  | none => d

/-- `toAnthropicTools` from `src/mcp/toolbridge.mjs` lines 14-23. -/
def toAnthropicTools (mcpTools : ToolsRes) (label : String) : List AnthropicTool :=
  (normalizeToolsList mcpTools).map fun t =>
    { name := t.name
      description := orElseStr t.description (label ++ " tool")
      input_schema := orElseStr t.inputSchema (orElseStr t.input_schema defaultSchema) }

/-- A configured provider as fed to `buildToolCatalog` (main.mjs lines
192-199): its label, its connection (an opaque handle, modeled as a number)
and its sanitizer kind, together with the value its `listTools()` returned
during the build. -/
structure ServerSpec where
  label : String
  client : Nat
  sanitizer : String
  tools : ToolsRes
deriving DecidableEq

/-- A routing-table entry: `name -> { client, sanitizer }`. -/
structure RouteEntry where
  client : Nat
  sanitizer : String
deriving DecidableEq

/-- The routing table. JS `Map.set` overwrites the entry for an existing key;
we model the table as a list of insertions, most recent first, with lookup
returning the most recent one. -/
abbrev RouteMap := List (String × RouteEntry)

/-- JS `Map.prototype.set` under the most-recent-first model. -/
def mapSet (m : RouteMap) (k : String) (v : RouteEntry) : RouteMap := (k, v) :: m

/-- JS `Map.prototype.get` under the most-recent-first model. -/
def mapGet (m : RouteMap) (k : String) : Option RouteEntry :=
  (m.find? (fun e => e.1 == k)).map (fun e => e.2)

/-- `buildToolCatalog` from `src/mcp/toolbridge.mjs` lines 25-39: flatten
every provider's tools into the model-facing catalog and register every tool
name in the routing table, in provider order. -/
def buildToolCatalog (servers : List ServerSpec) : List AnthropicTool × RouteMap :=
  (servers.foldl (fun acc s => acc ++ toAnthropicTools s.tools s.label) [],
   servers.foldl
     (fun m s =>
       (normalizeToolsList s.tools).foldl (fun m' t => mapSet m' t.name ⟨s.client, s.sanitizer⟩) m)
     [])

/-- A content block of a model response (`resp.content`). Only the
`tool_use` shape is inspected by the fulfillment loop. -/
inductive InBlock where
  | toolUse (id name : String) (input : Args)
  | textBlock (s : String)
  | otherBlock
deriving DecidableEq

/-- A content segment of a provider result. A non-text segment is carried as
its `JSON.stringify` serialization. -/
inductive ResBlock where
  | text (s : String)
  | nonText (json : String)
deriving DecidableEq

/-- A provider `callTool` result: an object with a `content` array, a plain
string, or any other value (carried as its `JSON.stringify` serialization). -/
inductive ToolRes where
  | withContent (blocks : List ResBlock)
  | strRes (s : String)
  | jsonRes (json : String)
deriving DecidableEq

/-- Content of a produced `tool_result` block: the unregistered-tool branch
pushes a bare string, the others push a one-element text-block list. -/
inductive ResultContent where
  | str (s : String)
  | blocks (bs : List ResBlock)
deriving DecidableEq

/-- A produced `tool_result` block. -/
structure ToolResult where
  tool_use_id : String
  content : ResultContent
deriving DecidableEq

/-- A record of one dispatched `callTool(client, name, safeArgs)`. -/
structure CallRec where
  client : Nat
  name : String
  args : Args
deriving DecidableEq

/-- The dispatch oracle standing for `callTool` of `src/mcp/tools/call.mjs`:
given the connection handle, tool name and sanitized arguments it either
returns a result or throws (modeled as `Except.error` with the message). -/
abbrev Dispatch := Nat → String → Args → Except String ToolRes

/-- The scan predicate of the fulfillment loop: `block.type === 'tool_use'`. -/
def isToolUse : InBlock → Bool
  | .toolUse _ _ _ => true
  | _ => false

/-- A dispatch oracle that always throws; used to exhibit runs in which no
call can be served. -/
def noCall : Dispatch := fun _ _ _ => Except.error "no call"

/-- The text flattening of a provider result (toolbridge.mjs lines 120-127):
a `content` array is joined segment-wise with newlines, a plain string
passes through, anything else is stringified. -/
def textOfRes : ToolRes → String
  | .withContent bs =>
    String.intercalate "\n" (bs.map fun b =>
      match b with
      | .text s => s
      | .nonText j => j)
  | .strRes s => s
  | .jsonRes j => j

/-- `fulfillToolUses` from `src/mcp/toolbridge.mjs` lines 98-143: scan the
content blocks, resolve each `tool_use` through the routing table, sanitize,
dispatch and convert. Returns the produced results, the final session state,
and the list of dispatched calls (for stating that a call never happens). -/
def fulfillToolUses (baseRepos baseDemo : String) (routeMap : RouteMap) (call : Dispatch) :
    List InBlock → SessionState → List ToolResult × SessionState × List CallRec
  | [], st => ([], st, [])
  | b :: rest, st =>
    match b with
    | .textBlock _ => fulfillToolUses baseRepos baseDemo routeMap call rest st
    | .otherBlock => fulfillToolUses baseRepos baseDemo routeMap call rest st
    | .toolUse id name input =>
      match mapGet routeMap name with
      | none =>
        let r := fulfillToolUses baseRepos baseDemo routeMap call rest st
        (⟨id, .str ("ERROR: Tool no registrada en routeMap: " ++ name)⟩ :: r.1, r.2)
      | some entry =>
        let s := sanitizeArgsByTool baseRepos baseDemo name input st entry.sanitizer
        match call entry.client name s.1 with
        | .ok res =>
          let r := fulfillToolUses baseRepos baseDemo routeMap call rest s.2
          (⟨id, .blocks [.text (textOfRes res)]⟩ :: r.1, r.2.1,
           ⟨entry.client, name, s.1⟩ :: r.2.2)
        | .error e =>
          let r := fulfillToolUses baseRepos baseDemo routeMap call rest s.2
          (⟨id, .blocks [.text ("ERROR: " ++ e)]⟩ :: r.1, r.2.1,
           ⟨entry.client, name, s.1⟩ :: r.2.2)

/-- JS `String.prototype.trim` over the whitespace the transcripts contain. -/
def trimChars (cs : List Char) : List Char :=
  ((cs.dropWhile (fun c => c.isWhitespace)).reverse.dropWhile (fun c => c.isWhitespace)).reverse

/-- `extractText` from `src/main.mjs` lines 100-106: the text blocks joined
with newlines, trimmed. -/
def extractText (blocks : List InBlock) : String :=
  String.mk (trimChars (String.intercalate "\n" (blocks.filterMap fun b =>
    match b with
    | .textBlock s => some s
    | _ => none)).data)

/-- The final reply of `askAnthropicWithTools` (main.mjs line 179):
`extractText(resp.content) || '(Sin texto en la respuesta)'`. -/
def finalTextOf (blocks : List InBlock) : String :=
  let t := extractText blocks
  if t = "" then "(Sin texto en la respuesta)" else t

/-- The tool-calling conversation loop of `askAnthropicWithTools`
(`src/main.mjs` lines 164-181), run against a scripted model: `script k` is
the content of the model's response to the k-th query (counting from 0).
Returns the number of model queries performed and the final reply text. The
source loop has no iteration cap, so the embedding is fuel-indexed and
exhausted fuel appears as `none`. -/
def runToolLoop (baseRepos baseDemo : String) (routeMap : RouteMap) (call : Dispatch)
    (script : Nat → List InBlock) :
    Nat → Nat → SessionState → Option (Nat × String)
  | 0, _, _ => none
  | fuel + 1, k, st =>
    let resp := script k
    let r := fulfillToolUses baseRepos baseDemo routeMap call resp st
    if r.1.isEmpty then some (k + 1, finalTextOf resp)
    else runToolLoop baseRepos baseDemo routeMap call script fuel (k + 1) r.2.1

/-- A JSON-RPC error object of a remote response body. -/
structure RpcError where
  message : Option String := none
deriving DecidableEq

/-- A parsed JSON-RPC response body. The `result` payload is carried opaquely
as its serialized text. -/
structure RpcBody where
  error : Option RpcError := none
  result : Option String := none
deriving DecidableEq

/-- A remote HTTP response: its status code and its body as parsed JSON
(`none` when the body is not valid JSON and `res.json()` rejects). -/
structure HttpResp where
  status : Nat
  jsonBody : Option RpcBody
deriving DecidableEq

/-- `fetch`'s `Response.ok`: status in the 2xx range. -/
def resOk (status : Nat) : Bool := decide (200 ≤ status ∧ status < 300)

/-- JS `data?.error?.message || 'HTTP ' + res.status`. -/
def remoteMsg (data : RpcBody) (status : Nat) : String :=
  match data.error with
  | some err =>
    match err.message with
    | some m => if m != "" then m else "HTTP " ++ toString status
    | none => "HTTP " ++ toString status
  | none => "HTTP " ++ toString status

/-- `jsonRpc` of the FIRST `connectHttpServer` variant in
`src/mcp/connect_http.mjs` (lines 41-49): a non-JSON body is replaced by
`{}`, and on a non-2xx status or an `error` field the code computes `msg`
but never throws — the branch body is dead — and falls through to
`return data.result`. The method name does not influence the outcome. -/
def jsonRpcA (resp : HttpResp) : Except String (Option String) :=
  let data := resp.jsonBody.getD {}
  if !(resOk resp.status) || data.error.isSome then
    let _msg := remoteMsg data resp.status
    Except.ok data.result
  else
    Except.ok data.result

/-- `jsonRpc` of the SECOND `connectHttpServer` variant in
`src/mcp/connect_http.mjs` (lines 101-123): throws on a non-JSON body, and
throws `Error al llamar a <method>: <msg>` on a non-2xx status or an
`error` field. -/
def jsonRpcB (method : String) (resp : HttpResp) : Except String (Option String) :=
  match resp.jsonBody with
  | none =>
    Except.error ("Respuesta inválida del servidor (no es JSON) - HTTP " ++ toString resp.status)
  | some data =>
    if !(resOk resp.status) || data.error.isSome then
      Except.error ("Error al llamar a " ++ method ++ ": " ++ remoteMsg data resp.status)
    else
      Except.ok data.result

namespace NodePath

theorem consHead_ne_nil (c : Char) (l : List (List Char)) : consHead c l ≠ [] := by
  cases l <;> simp [consHead]

theorem splitSlash_ne_nil (cs : List Char) : splitSlash cs ≠ [] := by
  cases cs with
  | nil => simp [splitSlash]
  | cons c rest =>
    simp only [splitSlash]
    split
    · simp
    · exact consHead_ne_nil c _

theorem splitSlash_no_slash (cs : List Char) : ∀ g ∈ splitSlash cs, '/' ∉ g := by
  induction cs with
  | nil =>
    intro g hg
    simp [splitSlash] at hg
    subst hg
    simp
  | cons c rest ih =>
    intro g hg
    simp only [splitSlash] at hg
    by_cases hc : c = '/'
    · rw [if_pos hc] at hg
      rcases List.mem_cons.mp hg with h | h
      · subst h; simp
      · exact ih g h
    · rw [if_neg hc] at hg
      cases hsp : splitSlash rest with
      | nil => exact absurd hsp (splitSlash_ne_nil rest)
      | cons x xs =>
        rw [hsp] at hg
        simp only [consHead] at hg
        rcases List.mem_cons.mp hg with h | h
        · subst h
          intro hmem
          rcases List.mem_cons.mp hmem with h' | h'
          · exact hc h'.symm
          · exact ih x (by rw [hsp]; exact List.mem_cons_self x xs) h'
        · exact ih g (by rw [hsp]; exact List.mem_cons_of_mem x h)

theorem splitSlash_of_no_slash (g : List Char) (h : '/' ∉ g) : splitSlash g = [g] := by
  induction g with
  | nil => rfl
  | cons c rest ih =>
    have hc : c ≠ '/' := fun hc => h (by simp [hc])
    have hr : '/' ∉ rest := fun hr => h (List.mem_cons_of_mem c hr)
    simp only [splitSlash, if_neg hc, ih hr, consHead]

theorem splitSlash_append_sep (g t : List Char) (h : '/' ∉ g) :
    splitSlash (g ++ '/' :: t) = g :: splitSlash t := by
  induction g with
  | nil => simp [splitSlash]
  | cons c rest ih =>
    have hc : c ≠ '/' := fun hc => h (by simp [hc])
    have hr : '/' ∉ rest := fun hr => h (List.mem_cons_of_mem c hr)
    rw [List.cons_append]
    simp only [splitSlash, if_neg hc]
    rw [ih hr]
    simp [consHead]

theorem joinSlash_cons (g : List Char) (gs : List (List Char)) (h : gs ≠ []) :
    joinSlash (g :: gs) = g ++ '/' :: joinSlash gs := by
  cases gs with
  | nil => exact absurd rfl h
  | cons y ys => rfl

theorem splitSlash_joinSlash (gs : List (List Char))
    (h : ∀ x ∈ gs, '/' ∉ x) (hne : gs ≠ []) :
    splitSlash (joinSlash gs) = gs := by
  induction gs with
  | nil => exact absurd rfl hne
  | cons x gs ih =>
    cases gs with
    | nil => exact splitSlash_of_no_slash x (h x (by simp))
    | cons y ys =>
      rw [joinSlash_cons x (y :: ys) (by simp),
        splitSlash_append_sep x _ (h x (by simp)),
        ih (fun z hz => h z (List.mem_cons_of_mem x hz)) (by simp)]

theorem splitSlash_joinSlash_append (gs : List (List Char)) (t : List Char)
    (h : ∀ x ∈ gs, '/' ∉ x) (hne : gs ≠ []) :
    splitSlash (joinSlash gs ++ '/' :: t) = gs ++ splitSlash t := by
  induction gs with
  | nil => exact absurd rfl hne
  | cons x gs ih =>
    cases gs with
    | nil =>
      rw [show joinSlash [x] = x from rfl, splitSlash_append_sep x t (h x (by simp))]
      rfl
    | cons y ys =>
      rw [joinSlash_cons x (y :: ys) (by simp), List.append_assoc, List.cons_append,
        splitSlash_append_sep x _ (h x (by simp)),
        ih (fun z hz => h z (List.mem_cons_of_mem x hz)) (by simp)]
      rfl

theorem joinSlash_append (gs vs : List (List Char)) (h1 : gs ≠ []) (h2 : vs ≠ []) :
    joinSlash (gs ++ vs) = joinSlash gs ++ '/' :: joinSlash vs := by
  induction gs with
  | nil => exact absurd rfl h1
  | cons x gs ih =>
    cases gs with
    | nil =>
      rw [List.singleton_append, joinSlash_cons x vs h2]
      rfl
    | cons y ys =>
      rw [List.cons_append, joinSlash_cons x ((y :: ys) ++ vs) (by simp),
        ih (by simp), joinSlash_cons x (y :: ys) (by simp), List.append_assoc,
        List.cons_append]

theorem segsOf_mkAbsChars (gs : List (List Char))
    (h : ∀ x ∈ gs, '/' ∉ x) (h2 : ∀ x ∈ gs, x ≠ []) :
    segsOf (mkAbsChars gs) = gs := by
  cases gs with
  | nil => decide
  | cons x xs =>
    have hsp : splitSlash (mkAbsChars (x :: xs)) = [] :: (x :: xs) := by
      have h1 : splitSlash (mkAbsChars (x :: xs)) = [] :: splitSlash (joinSlash (x :: xs)) := by
        simp [mkAbsChars, splitSlash]
      rw [h1, splitSlash_joinSlash (x :: xs) h (by simp)]
    have hdrop : segsOf (mkAbsChars (x :: xs)) = (x :: xs).filter (fun g => g ≠ []) := by
      rw [segsOf, hsp, List.filter_cons_of_neg]
      simp
    rw [hdrop, List.filter_eq_self.mpr]
    intro a ha
    simpa using h2 a ha

theorem normAux_true_eq (rest acc : List (List Char))
    (h : ∀ g ∈ rest, g ≠ ['.', '.']) :
    normAux true acc rest = acc.reverse ++ rest.filter (fun g => g ≠ ['.']) := by
  induction rest generalizing acc with
  | nil => simp [normAux]
  | cons s rest ih =>
    by_cases hs : s = ['.']
    · subst hs
      rw [show normAux true acc (['.'] :: rest) = normAux true acc rest from by
        simp [normAux]]
      rw [ih acc (fun g hg => h g (List.mem_cons_of_mem _ hg))]
      simp [List.filter_cons]
    · have hdd : s ≠ ['.', '.'] := h s (by simp)
      rw [show normAux true acc (s :: rest) = normAux true (s :: acc) rest from by
        simp [normAux, hs, hdd]]
      rw [ih (s :: acc) (fun g hg => h g (List.mem_cons_of_mem _ hg))]
      simp [List.filter_cons, hs]

theorem isPrefixOf_append_self (l t : List Char) : l.isPrefixOf (l ++ t) = true := by
  induction l with
  | nil => simp [List.isPrefixOf]
  | cons a as ih => simp [List.isPrefixOf, ih]

theorem mem_of_getLastQ {α : Type} : ∀ (l : List α) (a : α), l.getLast? = some a → a ∈ l
  | [], a, h => by simp [List.getLast?] at h
  | [x], a, h => by
    simp [List.getLast?] at h
    simp [h]
  | x :: y :: t, a, h => by
    have h' : (y :: t).getLast? = some a := h
    exact List.mem_cons_of_mem x (mem_of_getLastQ (y :: t) a h')

theorem validSeg_parts (g : List Char) (hg : validSeg g = true) :
    g ≠ [] ∧ '/' ∉ g ∧ g ≠ ['.'] ∧ g ≠ ['.', '.'] := by
  simp only [validSeg, Bool.and_eq_true, Bool.not_eq_true', decide_eq_true_eq] at hg
  obtain ⟨⟨⟨h1, h2⟩, h3⟩, h4⟩ := hg
  refine ⟨?_, ?_, h3, h4⟩
  · intro he
    rw [he] at h1
    simp at h1
  · intro hm
    have hel := List.elem_eq_true_of_mem hm
    rw [List.contains, hel] at h2
    cases h2

theorem validBase_parts (b : String) (hb : validBase b = true) :
    segsOf b.data ≠ [] ∧ (∀ g ∈ segsOf b.data, validSeg g = true) ∧
      b.data = mkAbsChars (segsOf b.data) := by
  simp only [validBase, Bool.and_eq_true, Bool.not_eq_true', decide_eq_true_eq,
    List.all_eq_true, List.isEmpty_eq_false_iff_exists_mem] at hb
  obtain ⟨⟨h1, h2⟩, h3⟩ := hb
  refine ⟨?_, h2, h3⟩
  obtain ⟨a, ha⟩ := h1
  exact List.ne_nil_of_mem ha

theorem validBase_data_cons (b : String) (hb : validBase b = true) :
    b.data = '/' :: joinSlash (segsOf b.data) :=
  (validBase_parts b hb).2.2

theorem filter_ne_nil_of_valid (gs : List (List Char))
    (h : ∀ g ∈ gs, validSeg g = true) :
    gs.filter (fun g => g ≠ []) = gs :=
  List.filter_eq_self.mpr (fun a ha => by
    simpa using (validSeg_parts a (h a ha)).1)

theorem filter_ne_dot_of_valid (gs : List (List Char))
    (h : ∀ g ∈ gs, validSeg g = true) :
    gs.filter (fun g => g ≠ ['.']) = gs :=
  List.filter_eq_self.mpr (fun a ha => by
    simpa using (validSeg_parts a (h a ha)).2.2.1)

theorem resolveAbs_valid (b : String) (hb : validBase b = true) : resolveAbs b = b := by
  obtain ⟨hne, hall, heq⟩ := validBase_parts b hb
  have hnd : ∀ g ∈ segsOf b.data, g ≠ ['.', '.'] := fun g hg =>
    (validSeg_parts g (hall g hg)).2.2.2
  show String.mk (normalizeAbsChars b.data) = b
  rw [normalizeAbsChars, normAux_true_eq (segsOf b.data) [] hnd]
  rw [List.reverse_nil, List.nil_append, filter_ne_dot_of_valid _ hall, ← heq]

theorem normalizeAbs_valid (b : String) (hb : validBase b = true) :
    normalizeAbsChars b.data = b.data := by
  have h := resolveAbs_valid b hb
  have h2 : (resolveAbs b).data = (String.mk (normalizeAbsChars b.data)).data := rfl
  rw [h] at h2
  exact h2.symm

theorem splitSlash_cons_sep (w : List Char) : splitSlash ('/' :: w) = [] :: splitSlash w := by
  simp [splitSlash]

theorem segsOf_append_tail (b : String) (hb : validBase b = true) (t : List Char) :
    segsOf (b.data ++ '/' :: t) = segsOf b.data ++ segsOf t := by
  obtain ⟨hne, hall, heq⟩ := validBase_parts b hb
  have hslash : ∀ x ∈ segsOf b.data, '/' ∉ x := fun x hx =>
    (validSeg_parts x (hall x hx)).2.1
  have h1 : b.data ++ '/' :: t = '/' :: (joinSlash (segsOf b.data) ++ '/' :: t) := by
    conv_lhs => rw [heq]
    rfl
  rw [segsOf, h1, splitSlash_cons_sep,
    splitSlash_joinSlash_append (segsOf b.data) t hslash hne]
  rw [List.filter_cons_of_neg (by simp), List.filter_append,
    filter_ne_nil_of_valid _ hall]
  rfl

theorem segsOf_single (g : List Char) (hgs : '/' ∉ g) (hge : g ≠ []) :
    segsOf g = [g] := by
  rw [segsOf, splitSlash_of_no_slash g hgs]
  rw [List.filter_cons_of_pos]
  · rfl
  · simpa using hge

theorem segsOf_append_seg (b : String) (hb : validBase b = true) (g : List Char)
    (hgs : '/' ∉ g) (hge : g ≠ []) :
    segsOf (b.data ++ '/' :: g) = segsOf b.data ++ [g] := by
  rw [segsOf_append_tail b hb g, segsOf_single g hgs hge]

theorem head?_base_append (b : String) (hb : validBase b = true) (t : List Char) :
    (b.data ++ t).head? = some '/' := by
  rw [validBase_data_cons b hb]
  rfl

theorem validBase_data_ne_nil (b : String) (hb : validBase b = true) : b.data ≠ [] := by
  rw [validBase_data_cons b hb]
  simp

theorem normalizeAbs_append_seg (b : String) (hb : validBase b = true) (g : List Char)
    (hg : validSeg g = true) :
    normalizeAbsChars (b.data ++ '/' :: g) = b.data ++ '/' :: g := by
  obtain ⟨hge, hgs, hgd, hgdd⟩ := validSeg_parts g hg
  obtain ⟨hne, hall, heq⟩ := validBase_parts b hb
  rw [normalizeAbsChars, segsOf_append_seg b hb g hgs hge]
  have hnd : ∀ x ∈ segsOf b.data ++ [g], x ≠ ['.', '.'] := by
    intro x hx
    rcases List.mem_append.mp hx with h | h
    · exact (validSeg_parts x (hall x h)).2.2.2
    · simp at h
      rw [h]
      exact hgdd
  rw [normAux_true_eq _ [] hnd, List.reverse_nil, List.nil_append]
  rw [List.filter_append, filter_ne_dot_of_valid _ hall,
    List.filter_cons_of_pos (by simpa using hgd), List.filter_nil]
  rw [mkAbsChars, joinSlash_append _ [g] hne (by simp)]
  rw [show joinSlash [g] = g from rfl]
  conv_rhs => rw [heq]
  rfl

theorem pathJoin_seg (b : String) (hb : validBase b = true) (g : List Char)
    (hg : validSeg g = true) :
    pathJoin b (String.mk g) = String.mk (b.data ++ '/' :: g) := by
  obtain ⟨hge, hgs, hgd, hgdd⟩ := validSeg_parts g hg
  have hbd := validBase_data_ne_nil b hb
  have hj : joinedChars b.data (String.mk g).data = b.data ++ '/' :: g := by
    rw [joinedChars, if_neg hbd, if_neg hge]
  rw [pathJoin, hj, normJoin, if_neg (by simp [hbd]),
    if_pos (head?_base_append b hb ('/' :: g)), normalizeAbs_append_seg b hb g hg]

theorem pathJoin_empty_right (b : String) (hb : validBase b = true) :
    pathJoin b "" = b := by
  have hbd := validBase_data_ne_nil b hb
  have hj : joinedChars b.data ("" : String).data = b.data := by
    rw [joinedChars, if_neg hbd]
    rfl
  rw [pathJoin, hj, normJoin, if_neg hbd,
    if_pos (by rw [validBase_data_cons b hb]; rfl), normalizeAbs_valid b hb]

theorem pathJoin_dot (b : String) (hb : validBase b = true) :
    pathJoin b "." = b := by
  obtain ⟨hne, hall, heq⟩ := validBase_parts b hb
  have hbd := validBase_data_ne_nil b hb
  have hj : joinedChars b.data ("." : String).data = b.data ++ '/' :: ['.'] := by
    rw [joinedChars, if_neg hbd]
    rfl
  rw [pathJoin, hj, normJoin, if_neg (by simp [hbd]),
    if_pos (head?_base_append b hb _)]
  rw [normalizeAbsChars, segsOf_append_seg b hb ['.'] (by simp) (by simp)]
  have hnd : ∀ x ∈ segsOf b.data ++ [['.']], x ≠ ['.', '.'] := by
    intro x hx
    rcases List.mem_append.mp hx with h | h
    · exact (validSeg_parts x (hall x h)).2.2.2
    · simp at h
      subst h
      decide
  rw [normAux_true_eq _ [] hnd, List.reverse_nil, List.nil_append]
  rw [List.filter_append, filter_ne_dot_of_valid _ hall,
    List.filter_cons_of_neg (by simp), List.filter_nil, List.append_nil, ← heq]

theorem strStartsWith_append_seg (b : String) (g : List Char) :
    strStartsWith (String.mk (b.data ++ '/' :: g)) (b ++ "/") = true := by
  show ((b ++ "/").data).isPrefixOf (b.data ++ '/' :: g) = true
  have h1 : (b ++ "/").data = b.data ++ ['/'] := by
    rw [String.data_append]
  rw [h1, show b.data ++ '/' :: g = (b.data ++ ['/']) ++ g from by simp]
  exact isPrefixOf_append_self _ _

theorem pathJoin_basename_under (b inp : String) (hb : validBase b = true)
    (hbn : basename inp ≠ "..") :
    underBase b (pathJoin b (basename inp)) := by
  rcases hgl : (segsOf inp.data).getLast? with _ | g
  · have hbe : basename inp = "" := by
      rw [basename, hgl]
      rfl
    rw [hbe]
    exact Or.inl (pathJoin_empty_right b hb)
  · have hbg : basename inp = String.mk g := by
      rw [basename, hgl]
      rfl
    have hmem : g ∈ segsOf inp.data := mem_of_getLastQ _ g hgl
    have hgs : '/' ∉ g := by
      have hmem' : g ∈ splitSlash inp.data := List.mem_of_mem_filter hmem
      exact splitSlash_no_slash inp.data g hmem'
    have hge : g ≠ [] := by
      have := List.of_mem_filter hmem
      simpa using this
    have hgdd : g ≠ ['.', '.'] := by
      intro h
      apply hbn
      rw [hbg, h]
    by_cases hgd : g = ['.']
    · rw [hbg, hgd]
      exact Or.inl (pathJoin_dot b hb)
    · have hvs : validSeg g = true := by
        simp only [validSeg, Bool.and_eq_true, Bool.not_eq_true', decide_eq_true_eq]
        refine ⟨⟨⟨?_, ?_⟩, hgd⟩, hgdd⟩
        · simpa using hge
        · cases hcont : g.contains '/' with
          | false => rfl
          | true => exact absurd (List.mem_of_elem_eq_true hcont) hgs
      rw [hbg, pathJoin_seg b hb g hvs]
      exact Or.inr (strStartsWith_append_seg b g)

theorem forceUnderBase_confines (b inp : String) (hb : validBase b = true)
    (hbn : basename inp ≠ "..") :
    underBase b (forceUnderBase b inp) := by
  have hfb := pathJoin_basename_under b inp hb hbn
  simp only [forceUnderBase]
  generalize resolveAbs (if isAbsolute inp = true then inp else pathJoin b inp) = p
  split
  · exact hfb
  · next hcond =>
    by_cases hss : strStartsWith p (b ++ "/") = true
    · exact Or.inr hss
    · left
      have hB : strStartsWith p (b ++ "/") = false := by
        cases h : strStartsWith p (b ++ "/") with
        | true => exact absurd h hss
        | false => rfl
      cases hpb : (p != b) with
      | true => exact absurd (by rw [hB, hpb]; rfl) hcond
      | false => simpa using hpb

theorem contains_eq_false_not_mem {α : Type} [BEq α] [LawfulBEq α] (l : List α) (a : α)
    (h : l.contains a = false) : a ∉ l := fun hm => by
  rw [List.contains, List.elem_eq_true_of_mem hm] at h
  cases h

theorem mk_cons_ne_empty (c : Char) (t : List Char) : String.mk (c :: t) ≠ "" :=
  fun h => List.cons_ne_nil c t (congrArg String.data h)

theorem resolvePair_under (cur r : String) (hc : validBase cur = true)
    (habs : isAbsolute r = false) (hdd : hasDotDot r = false) :
    underBase cur (resolvePair cur r) := by
  obtain ⟨hne, hall, heq⟩ := validBase_parts cur hc
  rw [resolvePair, if_neg (by simp [habs])]
  by_cases hre : r.data = []
  · rw [if_pos hre]
    exact Or.inl (resolveAbs_valid cur hc)
  · rw [if_neg hre]
    have hmem_dd : ['.', '.'] ∉ segsOf r.data :=
      contains_eq_false_not_mem _ _ hdd
    show underBase cur (String.mk (normalizeAbsChars (cur.data ++ '/' :: r.data)))
    rw [normalizeAbsChars, segsOf_append_tail cur hc r.data]
    have hnd : ∀ x ∈ segsOf cur.data ++ segsOf r.data, x ≠ ['.', '.'] := by
      intro x hx
      rcases List.mem_append.mp hx with h | h
      · exact (validSeg_parts x (hall x h)).2.2.2
      · intro hxe
        subst hxe
        exact hmem_dd h
    rw [normAux_true_eq _ [] hnd, List.reverse_nil, List.nil_append,
      List.filter_append, filter_ne_dot_of_valid _ hall]
    cases hfe : (segsOf r.data).filter (fun g => decide (g ≠ ['.'])) with
    | nil =>
      rw [List.append_nil, ← heq]
      exact Or.inl rfl
    | cons v vs =>
      right
      have hjs : mkAbsChars (segsOf cur.data ++ v :: vs) =
          cur.data ++ '/' :: joinSlash (v :: vs) := by
        rw [mkAbsChars, joinSlash_append _ _ hne (by simp)]
        conv_rhs => rw [heq]
        rfl
      rw [hjs]
      exact strStartsWith_append_seg cur (joinSlash (v :: vs))

theorem basename_no_slash (v : String) : '/' ∉ (basename v).data := by
  rw [basename]
  rcases hgl : (segsOf v.data).getLast? with _ | g
  · show '/' ∉ ([] : List Char)
    simp
  · show '/' ∉ g
    have hmem : g ∈ segsOf v.data := mem_of_getLastQ _ g hgl
    have hsp : g ∈ splitSlash v.data := List.mem_of_mem_filter hmem
    exact splitSlash_no_slash v.data g hsp

theorem isAbsolute_basename_false (v : String) : isAbsolute (basename v) = false := by
  have h := basename_no_slash v
  cases hd : (basename v).data with
  | nil => rw [isAbsolute, hd]
  | cons c t =>
    have hc : c ≠ '/' := by
      intro hcc
      rw [hd] at h
      exact h (by simp [hcc])
    rw [isAbsolute, hd]
    simp [hc]

theorem hasDotDot_basename_false (v : String) (hbn : basename v ≠ "..") :
    hasDotDot (basename v) = false := by
  rw [hasDotDot]
  rcases hgl : (segsOf v.data).getLast? with _ | g
  · have hbe : (basename v).data = [] := by
      rw [basename, hgl]
      rfl
    rw [hbe]
    decide
  · have hbg : (basename v).data = g := by
      rw [basename, hgl]
      rfl
    rw [hbg]
    have hmem : g ∈ segsOf v.data := mem_of_getLastQ _ g hgl
    have hgs : '/' ∉ g :=
      splitSlash_no_slash v.data g (List.mem_of_mem_filter hmem)
    have hge : g ≠ [] := by
      have := List.of_mem_filter hmem
      simpa using this
    have hgdd : g ≠ ['.', '.'] := by
      intro hh
      apply hbn
      rw [basename, hgl, hh]
      rfl
    rw [segsOf_single g hgs hge]
    cases hc : ([g].contains ['.', '.']) with
    | false => rfl
    | true =>
      have : ['.', '.'] ∈ [g] := List.mem_of_elem_eq_true hc
      simp at this
      exact absurd this.symm hgdd

theorem resolveAbs_ne_empty (s : String) : resolveAbs s ≠ "" :=
  mk_cons_ne_empty '/' _

theorem pathJoin_base_ne_empty (b x : String) (hb : validBase b = true) :
    pathJoin b x ≠ "" := by
  have hbd := validBase_data_ne_nil b hb
  rw [pathJoin, joinedChars, if_neg hbd]
  by_cases hx : x.data = []
  · rw [if_pos hx, normJoin, if_neg hbd,
      if_pos (by rw [validBase_data_cons b hb]; rfl)]
    exact mk_cons_ne_empty '/' _
  · rw [if_neg hx, normJoin, if_neg (by simp [hbd]),
      if_pos (head?_base_append b hb _)]
    exact mk_cons_ne_empty '/' _

end NodePath

theorem forceUnderBase_ne_empty (b p : String) (hb : validBase b = true) :
    forceUnderBase b p ≠ "" := by
  simp only [forceUnderBase]
  by_cases hA : isAbsolute p = true
  · rw [if_pos hA]
    split
    · exact pathJoin_base_ne_empty b (basename p) hb
    · exact resolveAbs_ne_empty _
  · rw [if_neg hA]
    split
    · exact pathJoin_base_ne_empty b (basename p) hb
    · exact resolveAbs_ne_empty _

theorem truthy_some_true (s : String) (h : s ≠ "") : truthy (some s) = true := by
  simp [truthy, h]

theorem gitAddFiles_repo_path (name rp : String) (a : Args) :
    (gitAddFiles name rp a).repo_path = a.repo_path := by
  rw [gitAddFiles]
  split
  · split <;> rfl
  · rfl

theorem sanitizeGitArgs_explicit (baseRepos name : String) (args : Args) (st : SessionState)
    (ht : truthy args.repo_path = true) :
    (sanitizeGitArgs baseRepos name args st).1.repo_path
        = some (forceUnderBase baseRepos (args.repo_path.getD ""))
      ∧ (sanitizeGitArgs baseRepos name args st).2.currentRepoPath
        = some (forceUnderBase baseRepos (args.repo_path.getD "")) := by
  simp [sanitizeGitArgs, ht, gitAddFiles_repo_path]

theorem sanitizeGitArgs_session (baseRepos name : String) (args : Args) (st : SessionState)
    (ht : truthy args.repo_path = false) (hc : truthy st.currentRepoPath = true) :
    (sanitizeGitArgs baseRepos name args st).1.repo_path = st.currentRepoPath
      ∧ (sanitizeGitArgs baseRepos name args st).2 = st := by
  simp [sanitizeGitArgs, ht, hc, gitAddFiles_repo_path]

theorem sanitizeGitArgs_default (baseRepos name : String) (args : Args) (st : SessionState)
    (ht : truthy args.repo_path = false) (hc : truthy st.currentRepoPath = false) :
    (sanitizeGitArgs baseRepos name args st).1.repo_path
        = some (pathJoin baseRepos "repo-mcp")
      ∧ (sanitizeGitArgs baseRepos name args st).2.currentRepoPath
        = some (pathJoin baseRepos "repo-mcp") := by
  simp [sanitizeGitArgs, ht, hc, gitAddFiles_repo_path]

theorem sanitizeFsKey_under_cur (baseDemo : String) (st : SessionState) (cur : String)
    (hst : st.currentRepoPath = some cur) (hcur : cur ≠ "") (hv : validBase cur = true)
    (v : String)
    (habs : isAbsolute v = true → basename v ≠ "..")
    (hrel : isAbsolute v = false → hasDotDot v = false) :
    underBase cur (sanitizeFsKey baseDemo st v) := by
  rw [sanitizeFsKey]
  have ht : truthy st.currentRepoPath = true := by
    rw [hst]
    exact truthy_some_true cur hcur
  rw [if_pos ht]
  have hgd : st.currentRepoPath.getD "" = cur := by
    rw [hst]
    rfl
  rw [hgd]
  cases hab : isAbsolute v with
  | true =>
    simp only [hab, if_true]
    exact resolvePair_under cur (basename v) hv (isAbsolute_basename_false v)
      (hasDotDot_basename_false v (habs hab))
  | false =>
    simp only [hab, Bool.false_eq_true, if_false]
    exact resolvePair_under cur v hv hab (hrel hab)

theorem sanitizeFsKey_under_demo (baseDemo : String) (st : SessionState)
    (hst : truthy st.currentRepoPath = false) (hb : validBase baseDemo = true)
    (v : String) (hbn : basename v ≠ "..") :
    underBase baseDemo (sanitizeFsKey baseDemo st v) := by
  rw [sanitizeFsKey, if_neg (by simp [hst])]
  exact forceUnderBase_confines baseDemo v hb hbn

theorem sanitizeFsArgs_path_eq (baseDemo name : String) (args : Args) (st : SessionState)
    (v : String) (hv : args.path = some v) (hne : v ≠ "") :
    (sanitizeFsArgs baseDemo name args st).path
      = some (sanitizeFsKey baseDemo st v) := by
  simp [sanitizeFsArgs, hv, hne]

theorem sanitizeFsArgs_source_eq (baseDemo name : String) (args : Args) (st : SessionState)
    (v : String) (hv : args.source = some v) (hne : v ≠ "") :
    (sanitizeFsArgs baseDemo name args st).source
      = some (sanitizeFsKey baseDemo st v) := by
  simp [sanitizeFsArgs, hv, hne]

theorem sanitizeFsArgs_destination_eq (baseDemo name : String) (args : Args) (st : SessionState)
    (v : String) (hv : args.destination = some v) (hne : v ≠ "") :
    (sanitizeFsArgs baseDemo name args st).destination
      = some (sanitizeFsKey baseDemo st v) := by
  simp [sanitizeFsArgs, hv, hne]

theorem mapGet_mapSet (m : RouteMap) (k n : String) (v : RouteEntry) :
    mapGet (mapSet m k v) n = if k = n then some v else mapGet m n := by
  by_cases h : k = n
  · have hb : (k == n) = true := beq_iff_eq.mpr h
    simp [mapGet, mapSet, List.find?, hb, h]
  · have hb : (k == n) = false := beq_eq_false_iff_ne.mpr h
    simp [mapGet, mapSet, List.find?, hb, h]

theorem mapGet_regFold (ts : List ToolDesc) (e : RouteEntry) (m : RouteMap) (n : String) :
    mapGet (ts.foldl (fun m' t => mapSet m' t.name e) m) n
      = if n ∈ ts.map ToolDesc.name then some e else mapGet m n := by
  induction ts generalizing m with
  | nil => simp
  | cons t ts ih =>
    simp only [List.foldl_cons]
    rw [ih]
    by_cases hn : n ∈ ts.map ToolDesc.name
    · rw [if_pos hn, if_pos (by simp only [List.map_cons, List.mem_cons]; exact Or.inr hn)]
    · rw [if_neg hn, mapGet_mapSet]
      by_cases ht : t.name = n
      · rw [if_pos ht, if_pos (by simp only [List.map_cons, List.mem_cons]; exact Or.inl ht.symm)]
      · have hcond : ¬ n ∈ (t :: ts).map ToolDesc.name := by
          intro hmem
          simp only [List.map_cons, List.mem_cons] at hmem
          rcases hmem with h1 | h2
          · exact ht h1.symm
          · exact hn h2
        rw [if_neg ht, if_neg hcond]

theorem fulfill_cons_text (br bd : String) (rm : RouteMap) (call : Dispatch)
    (s : String) (rest : List InBlock) (st : SessionState) :
    fulfillToolUses br bd rm call (InBlock.textBlock s :: rest) st
      = fulfillToolUses br bd rm call rest st := rfl

theorem fulfill_cons_other (br bd : String) (rm : RouteMap) (call : Dispatch)
    (rest : List InBlock) (st : SessionState) :
    fulfillToolUses br bd rm call (InBlock.otherBlock :: rest) st
      = fulfillToolUses br bd rm call rest st := rfl

theorem fulfill_cons_unreg (br bd : String) (rm : RouteMap) (call : Dispatch)
    (id name : String) (input : Args) (rest : List InBlock) (st : SessionState)
    (hm : mapGet rm name = none) :
    fulfillToolUses br bd rm call (InBlock.toolUse id name input :: rest) st
      = (⟨id, ResultContent.str ("ERROR: Tool no registrada en routeMap: " ++ name)⟩
           :: (fulfillToolUses br bd rm call rest st).1,
         (fulfillToolUses br bd rm call rest st).2) := by
  simp [fulfillToolUses, hm]

theorem fulfill_cons_ok (br bd : String) (rm : RouteMap) (call : Dispatch)
    (id name : String) (input : Args) (rest : List InBlock) (st : SessionState)
    (entry : RouteEntry) (res : ToolRes)
    (hm : mapGet rm name = some entry)
    (hcall : call entry.client name
        (sanitizeArgsByTool br bd name input st entry.sanitizer).1 = Except.ok res) :
    fulfillToolUses br bd rm call (InBlock.toolUse id name input :: rest) st
      = (⟨id, ResultContent.blocks [ResBlock.text (textOfRes res)]⟩
           :: (fulfillToolUses br bd rm call rest
                 (sanitizeArgsByTool br bd name input st entry.sanitizer).2).1,
         (fulfillToolUses br bd rm call rest
            (sanitizeArgsByTool br bd name input st entry.sanitizer).2).2.1,
         ⟨entry.client, name, (sanitizeArgsByTool br bd name input st entry.sanitizer).1⟩
           :: (fulfillToolUses br bd rm call rest
                 (sanitizeArgsByTool br bd name input st entry.sanitizer).2).2.2) := by
  simp [fulfillToolUses, hm, hcall]

theorem fulfill_cons_err (br bd : String) (rm : RouteMap) (call : Dispatch)
    (id name : String) (input : Args) (rest : List InBlock) (st : SessionState)
    (entry : RouteEntry) (e : String)
    (hm : mapGet rm name = some entry)
    (hcall : call entry.client name
        (sanitizeArgsByTool br bd name input st entry.sanitizer).1 = Except.error e) :
    fulfillToolUses br bd rm call (InBlock.toolUse id name input :: rest) st
      = (⟨id, ResultContent.blocks [ResBlock.text ("ERROR: " ++ e)]⟩
           :: (fulfillToolUses br bd rm call rest
                 (sanitizeArgsByTool br bd name input st entry.sanitizer).2).1,
         (fulfillToolUses br bd rm call rest
            (sanitizeArgsByTool br bd name input st entry.sanitizer).2).2.1,
         ⟨entry.client, name, (sanitizeArgsByTool br bd name input st entry.sanitizer).1⟩
           :: (fulfillToolUses br bd rm call rest
                 (sanitizeArgsByTool br bd name input st entry.sanitizer).2).2.2) := by
  simp [fulfillToolUses, hm, hcall]

theorem fulfillToolUses_no_toolUse (br bd : String) (rm : RouteMap) (call : Dispatch)
    (bs : List InBlock) (st : SessionState) (h : ∀ b ∈ bs, isToolUse b = false) :
    fulfillToolUses br bd rm call bs st = ([], st, []) := by
  induction bs with
  | nil => rfl
  | cons b rest ih =>
    cases b with
    | toolUse id name input =>
      have := h (InBlock.toolUse id name input) (List.mem_cons_self _ _)
      simp [isToolUse] at this
    | textBlock s =>
      rw [fulfill_cons_text]
      exact ih (fun x hx => h x (List.mem_cons_of_mem _ hx))
    | otherBlock =>
      rw [fulfill_cons_other]
      exact ih (fun x hx => h x (List.mem_cons_of_mem _ hx))

theorem fulfillToolUses_length (br bd : String) (rm : RouteMap) (call : Dispatch)
    (bs : List InBlock) : ∀ (st : SessionState),
    (fulfillToolUses br bd rm call bs st).1.length = (bs.filter isToolUse).length := by
  induction bs with
  | nil =>
    intro st
    rfl
  | cons b rest ih =>
    intro st
    cases b with
    | textBlock s =>
      rw [fulfill_cons_text, ih st]
      simp [List.filter_cons, isToolUse]
    | otherBlock =>
      rw [fulfill_cons_other, ih st]
      simp [List.filter_cons, isToolUse]
    | toolUse id name input =>
      have hfil : ((InBlock.toolUse id name input :: rest).filter isToolUse).length
          = (rest.filter isToolUse).length + 1 := by
        simp [List.filter_cons, isToolUse]
      rw [hfil]
      cases hm : mapGet rm name with
      | none =>
        rw [fulfill_cons_unreg br bd rm call id name input rest st hm]
        simp [ih st]
      | some entry =>
        cases hc : call entry.client name
            (sanitizeArgsByTool br bd name input st entry.sanitizer).1 with
        | ok res =>
          rw [fulfill_cons_ok br bd rm call id name input rest st entry res hm hc]
          simp [ih]
        | error e =>
          rw [fulfill_cons_err br bd rm call id name input rest st entry e hm hc]
          simp [ih]

theorem fulfillToolUses_calls_registered (br bd : String) (rm : RouteMap) (call : Dispatch)
    (bs : List InBlock) : ∀ (st : SessionState),
    ∀ c ∈ (fulfillToolUses br bd rm call bs st).2.2, (mapGet rm c.name).isSome = true := by
  induction bs with
  | nil =>
    intro st c hc
    simp [fulfillToolUses] at hc
  | cons b rest ih =>
    intro st c hc
    cases b with
    | textBlock s =>
      rw [fulfill_cons_text] at hc
      exact ih st c hc
    | otherBlock =>
      rw [fulfill_cons_other] at hc
      exact ih st c hc
    | toolUse id name input =>
      cases hm : mapGet rm name with
      | none =>
        rw [fulfill_cons_unreg br bd rm call id name input rest st hm] at hc
        exact ih st c hc
      | some entry =>
        cases hcall : call entry.client name
            (sanitizeArgsByTool br bd name input st entry.sanitizer).1 with
        | ok res =>
          rw [fulfill_cons_ok br bd rm call id name input rest st entry res hm hcall] at hc
          rcases List.mem_cons.mp hc with hch | hct
          · subst hch
            simp [hm]
          · exact ih _ c hct
        | error e =>
          rw [fulfill_cons_err br bd rm call id name input rest st entry e hm hcall] at hc
          rcases List.mem_cons.mp hc with hch | hct
          · subst hch
            simp [hm]
          · exact ih _ c hct

theorem fulfillToolUses_unregistered_mem (br bd : String) (rm : RouteMap) (call : Dispatch)
    (bs : List InBlock) (id name : String) (input : Args)
    (hn : mapGet rm name = none) :
    ∀ (st : SessionState), InBlock.toolUse id name input ∈ bs →
      (⟨id, ResultContent.str ("ERROR: Tool no registrada en routeMap: " ++ name)⟩ : ToolResult)
        ∈ (fulfillToolUses br bd rm call bs st).1 := by
  induction bs with
  | nil =>
    intro st hmem
    simp at hmem
  | cons b rest ih =>
    intro st hmem
    rcases List.mem_cons.mp hmem with heq | hmem'
    · rw [← heq, fulfill_cons_unreg br bd rm call id name input rest st hn]
      exact List.mem_cons_self _ _
    · cases b with
      | textBlock s =>
        rw [fulfill_cons_text]
        exact ih st hmem'
      | otherBlock =>
        rw [fulfill_cons_other]
        exact ih st hmem'
      | toolUse id2 name2 input2 =>
        cases hm : mapGet rm name2 with
        | none =>
          rw [fulfill_cons_unreg br bd rm call id2 name2 input2 rest st hm]
          exact List.mem_cons_of_mem _ (ih st hmem')
        | some entry =>
          cases hcall : call entry.client name2
              (sanitizeArgsByTool br bd name2 input2 st entry.sanitizer).1 with
          | ok res =>
            rw [fulfill_cons_ok br bd rm call id2 name2 input2 rest st entry res hm hcall]
            exact List.mem_cons_of_mem _ (ih _ hmem')
          | error e =>
            rw [fulfill_cons_err br bd rm call id2 name2 input2 rest st entry e hm hcall]
            exact List.mem_cons_of_mem _ (ih _ hmem')

theorem strAppendEmpty (s : String) : s ++ "" = s := by
  have h : s.data ++ ([] : List Char) = s.data := List.append_nil s.data
  have h2 : String.mk (s.data ++ []) = String.mk s.data := congrArg String.mk h
  exact h2

theorem runToolLoop_stops (br bd : String) (rm : RouteMap) (call : Dispatch)
    (script : Nat → List InBlock) :
    ∀ (k j fuel : Nat) (st : SessionState),
      (∀ i, i < k → ∃ b ∈ script (j + i), isToolUse b = true) →
      (∀ b ∈ script (j + k), isToolUse b = false) →
      k < fuel →
      runToolLoop br bd rm call script fuel j st
        = some (j + k + 1, finalTextOf (script (j + k))) := by
  intro k
  induction k with
  | zero =>
    intro j fuel st hbefore hk hfuel
    cases fuel with
    | zero => exact absurd hfuel (by omega)
    | succ f =>
      have hemp := fulfillToolUses_no_toolUse br bd rm call (script j) st
        (by simpa using hk)
      simp [runToolLoop, hemp]
  | succ k ih =>
    intro j fuel st hbefore hk hfuel
    cases fuel with
    | zero => exact absurd hfuel (by omega)
    | succ f =>
      have hne : (fulfillToolUses br bd rm call (script j) st).1 ≠ [] := by
        obtain ⟨b, hb, hbt⟩ := hbefore 0 (by omega)
        have hlen := fulfillToolUses_length br bd rm call (script j) st
        intro hnil
        rw [hnil] at hlen
        have hmemf : b ∈ (script j).filter isToolUse :=
          List.mem_filter.mpr ⟨by simpa using hb, hbt⟩
        have hflen : ((script j).filter isToolUse).length ≠ 0 := by
          intro h0
          rw [List.length_eq_zero] at h0
          exact List.ne_nil_of_mem hmemf h0
        exact hflen (by simpa using hlen.symm)
      have h1 : ∀ i, i < k → ∃ b ∈ script (j + 1 + i), isToolUse b = true := by
        intro i hi
        have := hbefore (i + 1) (by omega)
        have heq : j + (i + 1) = j + 1 + i := by omega
        rwa [heq] at this
      have h2 : ∀ b ∈ script (j + 1 + k), isToolUse b = false := by
        have heq : j + (k + 1) = j + 1 + k := by omega
        rwa [heq] at hk
      have hrec := ih (j + 1) f
        (fulfillToolUses br bd rm call (script j) st).2.1 h1 h2 (by omega)
      simp only [runToolLoop]
      rw [if_neg (by simpa using hne)]
      rw [hrec]
      rw [show j + 1 + k = j + (k + 1) from by omega]

theorem pathJoin_repo_mcp_under (b : String) (hb : validBase b = true) :
    underBase b (pathJoin b "repo-mcp") := by
  have h : pathJoin b (String.mk ("repo-mcp".data))
      = String.mk (b.data ++ '/' :: ("repo-mcp".data)) :=
    pathJoin_seg b hb ("repo-mcp".data) (by decide)
  have h2 : pathJoin b "repo-mcp" = String.mk (b.data ++ '/' :: ("repo-mcp".data)) := h
  rw [h2]
  exact Or.inr (strStartsWith_append_seg b _)

/-- C2 (counterexample): `forceUnderBase "/sandbox/repos" ".."` evaluates to
`"/sandbox"` — exactly the base's parent directory — which is neither the
base itself nor prefixed by `base ++ "/"`, refuting the claim as stated for
the input `".."`. -/
theorem C2_counterexample :
    forceUnderBase "/sandbox/repos" ".." = "/sandbox" ∧
      ¬ underBase "/sandbox/repos" (forceUnderBase "/sandbox/repos" "..") := by
  constructor
  · rfl
  · decide

/-- C2 (amended): for every normalized absolute non-root base directory `B`
and every input string `p` whose final path segment (basename) is not `..`,
`forceUnderBase B p` returns either `B` itself or a path that starts with
`B` followed by the path separator. -/
theorem C2_forceUnderBase_confined (B p : String) (hB : validBase B = true)
    (hp : basename p ≠ "..") : underBase B (forceUnderBase B p) :=
  forceUnderBase_confines B p hB hp

theorem C2_forceUnderBase_confined_witness :
    (validBase "/sandbox/repos" = true ∧ basename "../../etc/passwd" ≠ "..") ∧
      underBase "/sandbox/repos" (forceUnderBase "/sandbox/repos" "../../etc/passwd") :=
  ⟨⟨by decide, by decide⟩,
    C2_forceUnderBase_confined "/sandbox/repos" "../../etc/passwd" (by decide) (by decide)⟩

/-- C1 (counterexample): sanitizing a version-control call whose
`repo_path` is `".."` against the base `/sandbox/repos` yields the sanitized
value `/sandbox` — the base's parent directory — refuting the invariant as
stated. -/
theorem C1_counterexample :
    (sanitizeGitArgs "/sandbox/repos" "git_status"
        { repo_path := some ".." } {}).1.repo_path = some "/sandbox" ∧
      ¬ underBase "/sandbox/repos" "/sandbox" := by
  constructor
  · rfl
  · decide

/-- C1 (amended): the sanitizer confinement invariant, restricted to the
escapes the code actually prevents. For normalized absolute non-root bases:
(a) every `repo_path` produced by the version-control sanitizer lies in the
repository base, provided the supplied value's basename is not `..` and any
substituted session path lies in the base; (b) a filesystem value sanitized
while a (valid) current repository path is set lies under that repository
path, provided an absolute value's basename is not `..` and a relative value
has no `..` segment; (c) a filesystem value sanitized with no current
repository path lies under the demo base, provided its basename is not `..`;
(d) the filesystem sanitizer rewrites exactly the truthy `path`, `source`
and `destination` keys through that per-value rule. -/
theorem C1_sanitize_confined (baseRepos baseDemo : String)
    (hbr : validBase baseRepos = true) (hbd : validBase baseDemo = true) :
    (∀ (name : String) (args : Args) (st : SessionState),
      (∀ s, args.repo_path = some s → basename s ≠ "..") →
      (∀ s, st.currentRepoPath = some s → s ≠ "" → underBase baseRepos s) →
      ∀ r, (sanitizeGitArgs baseRepos name args st).1.repo_path = some r →
        underBase baseRepos r) ∧
    (∀ (st : SessionState) (cur : String),
      st.currentRepoPath = some cur → cur ≠ "" → validBase cur = true →
      ∀ v : String,
        (isAbsolute v = true → basename v ≠ "..") →
        (isAbsolute v = false → hasDotDot v = false) →
        underBase cur (sanitizeFsKey baseDemo st v)) ∧
    (∀ (st : SessionState), truthy st.currentRepoPath = false →
      ∀ v : String, basename v ≠ ".." →
        underBase baseDemo (sanitizeFsKey baseDemo st v)) ∧
    (∀ (name : String) (args : Args) (st : SessionState) (v : String),
      (args.path = some v → v ≠ "" →
        (sanitizeFsArgs baseDemo name args st).path
          = some (sanitizeFsKey baseDemo st v)) ∧
      (args.source = some v → v ≠ "" →
        (sanitizeFsArgs baseDemo name args st).source
          = some (sanitizeFsKey baseDemo st v)) ∧
      (args.destination = some v → v ≠ "" →
        (sanitizeFsArgs baseDemo name args st).destination
          = some (sanitizeFsKey baseDemo st v))) := by
  refine ⟨?_, ?_, ?_, ?_⟩
  · intro name args st hargs hst r hr
    cases ht : truthy args.repo_path with
    | false =>
      cases hc : truthy st.currentRepoPath with
      | false =>
        obtain ⟨h1, _⟩ := sanitizeGitArgs_default baseRepos name args st ht hc
        rw [h1] at hr
        rw [← Option.some.inj hr]
        exact pathJoin_repo_mcp_under baseRepos hbr
      | true =>
        obtain ⟨h1, _⟩ := sanitizeGitArgs_session baseRepos name args st ht hc
        rw [h1] at hr
        have hrne : r ≠ "" := by
          rw [hr] at hc
          simpa [truthy] using hc
        exact hst r hr hrne
    | true =>
      obtain ⟨h1, _⟩ := sanitizeGitArgs_explicit baseRepos name args st ht
      rw [h1] at hr
      rw [← Option.some.inj hr]
      cases harg : args.repo_path with
      | none =>
        rw [harg] at ht
        simp [truthy] at ht
      | some s =>
        exact forceUnderBase_confines baseRepos s hbr (hargs s harg)
  · intro st cur hst hcur hv v habs hrel
    exact sanitizeFsKey_under_cur baseDemo st cur hst hcur hv v habs hrel
  · intro st hst v hbn
    exact sanitizeFsKey_under_demo baseDemo st hst hbd v hbn
  · intro name args st v
    exact ⟨fun hv hne => sanitizeFsArgs_path_eq baseDemo name args st v hv hne,
      fun hv hne => sanitizeFsArgs_source_eq baseDemo name args st v hv hne,
      fun hv hne => sanitizeFsArgs_destination_eq baseDemo name args st v hv hne⟩

theorem C1_sanitize_confined_witness :
    (validBase "/sandbox/repos" = true ∧ validBase "/sandbox/demo" = true) ∧
      underBase "/sandbox/demo"
        (sanitizeFsKey "/sandbox/demo" {} "../../etc/passwd") := by
  refine ⟨⟨by decide, by decide⟩, ?_⟩
  exact (C1_sanitize_confined "/sandbox/repos" "/sandbox/demo"
      (by decide) (by decide)).2.2.1 {} (by decide) "../../etc/passwd" (by decide)

/-- C10: after every call to the version-control sanitizer, whichever branch
applies, the returned arguments carry a nonempty `repo_path`, the session
state's `currentRepoPath` is set, and the two agree. -/
theorem C10_git_session_sync (baseRepos : String) (hbr : validBase baseRepos = true)
    (name : String) (args : Args) (st : SessionState) :
    ∃ r, (sanitizeGitArgs baseRepos name args st).1.repo_path = some r ∧ r ≠ "" ∧
      (sanitizeGitArgs baseRepos name args st).2.currentRepoPath = some r := by
  cases ht : truthy args.repo_path with
  | false =>
    cases hc : truthy st.currentRepoPath with
    | false =>
      obtain ⟨h1, h2⟩ := sanitizeGitArgs_default baseRepos name args st ht hc
      exact ⟨_, h1, pathJoin_base_ne_empty baseRepos "repo-mcp" hbr, h2⟩
    | true =>
      obtain ⟨h1, h2⟩ := sanitizeGitArgs_session baseRepos name args st ht hc
      cases hcur : st.currentRepoPath with
      | none =>
        rw [hcur] at hc
        simp [truthy] at hc
      | some c =>
        refine ⟨c, ?_, ?_, ?_⟩
        · rw [h1, hcur]
        · rw [hcur] at hc
          simpa [truthy] using hc
        · rw [h2, hcur]
  | true =>
    obtain ⟨h1, h2⟩ := sanitizeGitArgs_explicit baseRepos name args st ht
    exact ⟨_, h1, forceUnderBase_ne_empty baseRepos _ hbr, h2⟩

theorem C10_git_session_sync_witness :
    validBase "/sandbox/repos" = true ∧
      (∃ r, (sanitizeGitArgs "/sandbox/repos" "git_log" {} {}).1.repo_path = some r ∧
        r ≠ "" ∧
        (sanitizeGitArgs "/sandbox/repos" "git_log" {} {}).2.currentRepoPath = some r) :=
  ⟨by decide, C10_git_session_sync "/sandbox/repos" (by decide) "git_log" {} {}⟩

/-- C6: calling the version-control sanitizer with an explicit repository
path, then calling it again on the resulting session state with the path
omitted, returns the same resolved path both times, equal to the first
call's sanitized value `forceUnderBase baseRepos p`. -/
theorem C6_session_path_propagation (baseRepos : String)
    (hbr : validBase baseRepos = true)
    (name1 name2 : String) (args1 args2 : Args) (st : SessionState) (p : String)
    (h1 : args1.repo_path = some p) (hp : p ≠ "") (h2 : args2.repo_path = none) :
    (sanitizeGitArgs baseRepos name1 args1 st).1.repo_path
        = some (forceUnderBase baseRepos p) ∧
      (sanitizeGitArgs baseRepos name2 args2
          (sanitizeGitArgs baseRepos name1 args1 st).2).1.repo_path
        = some (forceUnderBase baseRepos p) := by
  have ht1 : truthy args1.repo_path = true := by
    rw [h1]
    exact truthy_some_true p hp
  obtain ⟨e1, e2⟩ := sanitizeGitArgs_explicit baseRepos name1 args1 st ht1
  have hgd : args1.repo_path.getD "" = p := by
    rw [h1]
    rfl
  rw [hgd] at e1 e2
  refine ⟨e1, ?_⟩
  have ht2 : truthy args2.repo_path = false := by
    rw [h2]
    rfl
  have hc2 : truthy (sanitizeGitArgs baseRepos name1 args1 st).2.currentRepoPath = true := by
    rw [e2]
    exact truthy_some_true _ (forceUnderBase_ne_empty baseRepos p hbr)
  obtain ⟨f1, _⟩ := sanitizeGitArgs_session baseRepos name2 args2 _ ht2 hc2
  rw [f1, e2]

theorem C6_session_path_propagation_witness :
    (validBase "/sandbox/repos" = true ∧
      (Args.mk (some "proj") none none none none).repo_path = some "proj" ∧
      "proj" ≠ (String.mk []) ∧ (Args.mk none none none none none).repo_path = none) ∧
    ((sanitizeGitArgs "/sandbox/repos" "git_init"
        (Args.mk (some "proj") none none none none) {}).1.repo_path
      = some (forceUnderBase "/sandbox/repos" "proj") ∧
      (sanitizeGitArgs "/sandbox/repos" "git_status" (Args.mk none none none none none)
          (sanitizeGitArgs "/sandbox/repos" "git_init"
            (Args.mk (some "proj") none none none none) {}).2).1.repo_path
      = some (forceUnderBase "/sandbox/repos" "proj")) :=
  ⟨⟨by decide, by decide, by decide, by decide⟩,
    C6_session_path_propagation "/sandbox/repos" (by decide) "git_init" "git_status"
      (Args.mk (some "proj") none none none none) (Args.mk none none none none none)
      {} "proj" rfl (by decide) rfl⟩

/-- C7: when the catalog is built from two providers that both declare a
tool with the same name, the routing table maps that name to the later
provider's connection and sanitizer kind. (Stated for any name the second
provider declares, which subsumes the collision case.) -/
theorem C7_last_registration_wins (s1 s2 : ServerSpec) (n : String)
    (h : n ∈ (normalizeToolsList s2.tools).map ToolDesc.name) :
    mapGet (buildToolCatalog [s1, s2]).2 n
      = some ⟨s2.client, s2.sanitizer⟩ := by
  simp only [buildToolCatalog, List.foldl_cons, List.foldl_nil]
  rw [mapGet_regFold, if_pos h]

theorem C7_last_registration_wins_witness :
    ("status" ∈ (normalizeToolsList (ServerSpec.mk "git" 2 "git"
        (ToolsRes.arr [ToolDesc.mk "status" none none none])).tools).map ToolDesc.name) ∧
      mapGet (buildToolCatalog
          [ServerSpec.mk "filesystem" 1 "fs" (ToolsRes.arr [ToolDesc.mk "status" none none none]),
           ServerSpec.mk "git" 2 "git" (ToolsRes.arr [ToolDesc.mk "status" none none none])]).2
          "status"
        = some ⟨2, "git"⟩ :=
  ⟨by decide,
    C7_last_registration_wins
      (ServerSpec.mk "filesystem" 1 "fs" (ToolsRes.arr [ToolDesc.mk "status" none none none]))
      (ServerSpec.mk "git" 2 "git" (ToolsRes.arr [ToolDesc.mk "status" none none none]))
      "status" (by decide)⟩

/-- C3 (counterexample): resolving the unregistered tool name `status`
produces the result content string
`"ERROR: Tool no registrada en routeMap: status"`, which is not the string
`"Tool not registered: status"` the claim states. -/
theorem C3_counterexample :
    (fulfillToolUses "/sandbox/repos" "/sandbox/demo" [] noCall
        [InBlock.toolUse "id1" "status" {}] {}).1
      = [⟨"id1", ResultContent.str "ERROR: Tool no registrada en routeMap: status"⟩] ∧
      "ERROR: Tool no registrada en routeMap: status" ≠ "Tool not registered: status" := by
  constructor
  · rfl
  · decide

/-- C3 (amended): when the fulfillment loop encounters a tool-invocation
block whose name is not in the routing table, the produced result content is
the plain string `"ERROR: Tool no registrada en routeMap: <name>"`, the
session state is unchanged, and no call is dispatched (the run's call list
is empty). -/
theorem C3_unregistered_result (br bd : String) (rm : RouteMap) (call : Dispatch)
    (id name : String) (input : Args) (st : SessionState)
    (h : mapGet rm name = none) :
    fulfillToolUses br bd rm call [InBlock.toolUse id name input] st
      = ([⟨id, ResultContent.str ("ERROR: Tool no registrada en routeMap: " ++ name)⟩],
         st, []) := by
  rw [fulfill_cons_unreg br bd rm call id name input [] st h]
  rfl

theorem C3_unregistered_result_witness :
    (mapGet [] "status" = none) ∧
      fulfillToolUses "/sandbox/repos" "/sandbox/demo" [] noCall
          [InBlock.toolUse "id1" "status" {}] {}
        = ([⟨"id1", ResultContent.str ("ERROR: Tool no registrada en routeMap: " ++ "status")⟩],
           {}, []) :=
  ⟨rfl, C3_unregistered_result "/sandbox/repos" "/sandbox/demo" [] noCall "id1" "status" {} {} rfl⟩

/-- C4: for every tool name absent from the routing table, every invocation
block bearing that name yields an error-content result whose text contains
the literal tool name, and no call with that name is ever dispatched (every
dispatched call has a registered name). -/
theorem C4_unregistered_no_dispatch (br bd : String) (rm : RouteMap) (call : Dispatch)
    (bs : List InBlock) (st : SessionState) (name : String)
    (h : mapGet rm name = none) :
    (∀ id input, InBlock.toolUse id name input ∈ bs →
      ∃ pre suf, (⟨id, ResultContent.str (pre ++ name ++ suf)⟩ : ToolResult)
        ∈ (fulfillToolUses br bd rm call bs st).1) ∧
    (∀ c ∈ (fulfillToolUses br bd rm call bs st).2.2, c.name ≠ name) := by
  constructor
  · intro id input hmem
    refine ⟨"ERROR: Tool no registrada en routeMap: ", "", ?_⟩
    have hm := fulfillToolUses_unregistered_mem br bd rm call bs id name input h st hmem
    rw [strAppendEmpty]
    exact hm
  · intro c hc hcn
    have hreg := fulfillToolUses_calls_registered br bd rm call bs st c hc
    rw [hcn, h] at hreg
    simp at hreg

theorem C4_unregistered_no_dispatch_witness :
    (mapGet [] "status" = none) ∧
      ((∀ id input, InBlock.toolUse id "status" input
          ∈ [InBlock.textBlock "hi", InBlock.toolUse "id9" "status" {}] →
        ∃ pre suf, (⟨id, ResultContent.str (pre ++ "status" ++ suf)⟩ : ToolResult)
          ∈ (fulfillToolUses "/sandbox/repos" "/sandbox/demo" [] noCall
              [InBlock.textBlock "hi", InBlock.toolUse "id9" "status" {}] {}).1) ∧
      (∀ c ∈ (fulfillToolUses "/sandbox/repos" "/sandbox/demo" [] noCall
          [InBlock.textBlock "hi", InBlock.toolUse "id9" "status" {}] {}).2.2,
        c.name ≠ "status")) :=
  ⟨rfl, C4_unregistered_no_dispatch "/sandbox/repos" "/sandbox/demo" [] noCall
      [InBlock.textBlock "hi", InBlock.toolUse "id9" "status" {}] {} "status" rfl⟩

/-- C8: for a registered tool whose dispatch returns
`{content: [{type: "text", text: "ok"}]}`, the fulfillment loop produces a
`tool_result` block whose content is the single text block `"ok"` (the
flattened text equals `"ok"`), records the dispatched call, and threads the
sanitized session state. -/
theorem C8_result_roundtrip (br bd : String) (rm : RouteMap) (call : Dispatch)
    (id name : String) (input : Args) (st : SessionState) (entry : RouteEntry)
    (hr : mapGet rm name = some entry)
    (hok : call entry.client name
        (sanitizeArgsByTool br bd name input st entry.sanitizer).1
      = Except.ok (ToolRes.withContent [ResBlock.text "ok"])) :
    fulfillToolUses br bd rm call [InBlock.toolUse id name input] st
      = ([⟨id, ResultContent.blocks [ResBlock.text "ok"]⟩],
         (sanitizeArgsByTool br bd name input st entry.sanitizer).2,
         [⟨entry.client, name, (sanitizeArgsByTool br bd name input st entry.sanitizer).1⟩]) := by
  rw [fulfill_cons_ok br bd rm call id name input [] st entry _ hr hok]
  rfl

theorem C8_result_roundtrip_witness :
    (mapGet (mapSet [] "echo" ⟨7, "none"⟩) "echo" = some ⟨7, "none"⟩) ∧
      fulfillToolUses "/sandbox/repos" "/sandbox/demo" (mapSet [] "echo" ⟨7, "none"⟩)
          (fun _ _ _ => Except.ok (ToolRes.withContent [ResBlock.text "ok"]))
          [InBlock.toolUse "id3" "echo" {}] {}
        = ([⟨"id3", ResultContent.blocks [ResBlock.text "ok"]⟩], {},
           [⟨7, "echo", {}⟩]) :=
  ⟨rfl, C8_result_roundtrip "/sandbox/repos" "/sandbox/demo" (mapSet [] "echo" ⟨7, "none"⟩)
      (fun _ _ _ => Except.ok (ToolRes.withContent [ResBlock.text "ok"]))
      "id3" "echo" {} {} ⟨7, "none"⟩ rfl rfl⟩

/-- C9: if the model's responses 0..k-1 each contain a tool-invocation block
and response k contains none, the fulfillment loop performs exactly k+1
model queries and returns response k's text; in particular (k = 0), a first
response with zero invocation blocks means exactly one query and an
immediate return of that response's text. -/
theorem C9_loop_termination (br bd : String) (rm : RouteMap) (call : Dispatch)
    (script : Nat → List InBlock) (k fuel : Nat) (st : SessionState)
    (hbefore : ∀ i, i < k → ∃ b ∈ script i, isToolUse b = true)
    (hk : ∀ b ∈ script k, isToolUse b = false)
    (hfuel : k < fuel) :
    runToolLoop br bd rm call script fuel 0 st
      = some (k + 1, finalTextOf (script k)) := by
  have h := runToolLoop_stops br bd rm call script k 0 fuel st
    (by intro i hi; simpa using hbefore i hi)
    (by simpa using hk) hfuel
  simpa using h

theorem C9_loop_termination_witness :
    ((∀ i, i < 0 → ∃ b ∈ [InBlock.textBlock "hola"], isToolUse b = true) ∧
      (∀ b ∈ [InBlock.textBlock "hola"], isToolUse b = false) ∧ 0 < 1) ∧
      runToolLoop "/sandbox/repos" "/sandbox/demo" [] noCall
          (fun _ => [InBlock.textBlock "hola"]) 1 0 {}
        = some (1, finalTextOf [InBlock.textBlock "hola"]) :=
  ⟨⟨fun i hi => absurd hi (by omega), by decide, by omega⟩,
    C9_loop_termination "/sandbox/repos" "/sandbox/demo" [] noCall
      (fun _ => [InBlock.textBlock "hola"]) 0 1 {}
      (fun i hi => absurd hi (by omega)) (by decide) (by omega)⟩

/-- C5: the failing input for the first `jsonRpc` variant. On an HTTP 500
response whose JSON-RPC body carries the error message `"boom"`, `jsonRpcA`
(connect_http.mjs lines 41-49) returns normally with the body's absent
`result` — its error branch computes the message and then does nothing —
while `jsonRpcB` (lines 101-123) raises an error carrying `"boom"`, as the
claim requires. -/
theorem C5_jsonRpc_error_swallowed :
    jsonRpcA (HttpResp.mk 500
        (some (RpcBody.mk (some (RpcError.mk (some "boom"))) none)))
      = Except.ok none ∧
    jsonRpcB "jokes.get" (HttpResp.mk 500
        (some (RpcBody.mk (some (RpcError.mk (some "boom"))) none)))
      = Except.error "Error al llamar a jokes.get: boom" := by
  constructor
  · rfl
  · rfl

end MCPBridge
